import Mathlib

/-!
# vtable_hook: a shallow embedding of `src/include/vtable_hook.hpp`

The header is embedded over an explicit machine state.

* Memory is a map from addresses to pointer-width words (`Mem`).  Every access
  the header performs is a whole `uintptr_t`, at a stride of
  `sizeof( uintptr_t )` bytes from the base of the region it indexes, so
  `table[ i ]` is the word at address `table + i * sz`, where the parameter
  `sz` stands for `sizeof( uintptr_t )`.
* `nullptr` is the address `0`.
* The parameter `win` selects the branch of the `#if defined(WIN32) ...`
  conditional in `mem::get_vtable_length`.
* The loop of `mem::get_vtable_length` need not terminate; it is run with a
  fuel argument and yields `none` when the fuel runs out.
* `std::make_unique` is given the address `p` of the block it returns; the
  allocation is taken to succeed.
* A store or load never faults: `VirtualProtect` is taken to succeed and its
  effect is recorded in the protection map and in a call log.
* The controller's members are held in the record `hook_t`, apart from the
  memory map.  A store inside the shadow block cannot reach them in the
  program either; a store that leaves the block can, and for such a store the
  embedding gives the address and the value stored, not the fate of the
  controller.
-/

namespace vtable_hook

/-! ## Machine state -/

/-- Memory: the pointer-width word stored at each address. -/
abbrev Mem := Nat → Nat

/-- Store of one word: `*a = v`. -/
def Mem.write (m : Mem) (a v : Nat) : Mem :=
  fun x => if x = a then v else m x

/-- The state outside the controller: memory contents, the protection flags of
each address, the log of `VirtualProtect` calls (address, size, new flags) and
the live heap blocks (base address, number of words). -/
structure World where
  mem : Mem
  prot : Nat → Nat
  vp_calls : List (Nat × Nat × Nat)
  heap : List (Nat × Nat)

/-! ## Platform primitives used by the header -/

/-- Modelled from the spec: the Windows SDK macro `IS_INTRESOURCE` (declared in
`Windows.h`, not in the repository), the "small integer resource identifier,
not a pointer" predicate: the value shifted right by 16 bits is zero. -/
def IS_INTRESOURCE (r : Nat) : Bool :=
  r >>> 16 == 0

/-- Modelled from the spec: the Windows SDK constant `PAGE_READWRITE` (declared
in `Windows.h`, not in the repository), the protection that allows writes. -/
def PAGE_READWRITE : Nat := 4

/-- Modelled from the spec: the memory permission primitive `VirtualProtect`
(external collaborator, declared in `Windows.h`): it changes the protection of
the range `[lpAddress, lpAddress + dwSize)` to `flNewProtect` and hands back
the previous protection of its first address.  The call is assumed to succeed
and is appended to the log. -/
def VirtualProtect (w : World) (lpAddress dwSize flNewProtect : Nat) : Nat × World :=
  (w.prot lpAddress,
   { w with
     prot := fun a => if lpAddress ≤ a ∧ a < lpAddress + dwSize then flNewProtect else w.prot a,
     vp_calls := w.vp_calls ++ [(lpAddress, dwSize, flNewProtect)] })

/-- The word made of `k` copies of the byte `ch` (what `std::memset` stores in
each word of `k` bytes). -/
def splat : Nat → Nat → Nat
  | 0, _ => 0
  | k + 1, ch => ch % 256 + 256 * splat k ch

/-- Store `v` into the `k` words `dest[ 0 ] .. dest[ k - 1 ]`. -/
def fill_words (sz : Nat) (m : Mem) (dest v : Nat) : Nat → Mem
  | 0 => m
  | k + 1 => (fill_words sz m dest v k).write (dest + k * sz) v

/-- Copy the `k` words `src[ 0 ] .. src[ k - 1 ]`, read from `m0`, to
`dest[ 0 ] .. dest[ k - 1 ]` in `m`. -/
def copy_words (sz : Nat) (m0 m : Mem) (dest src : Nat) : Nat → Mem
  | 0 => m
  | k + 1 => (copy_words sz m0 m dest src k).write (dest + k * sz) (m0 (src + k * sz))

/-- Word-level `std::memset( dest, ch, count )` for a byte count `count`. -/
def memset (sz : Nat) (m : Mem) (dest ch count : Nat) : Mem :=
  fill_words sz m dest (splat sz ch) (count / sz)

/-- Word-level `std::memcpy( dest, src, count )` for a byte count `count`;
the source words are those held before the copy. -/
def memcpy (sz : Nat) (m : Mem) (dest src count : Nat) : Mem :=
  copy_words sz m m dest src (count / sz)

/-- Assignment `m_replace = std::make_unique<uintptr_t[]>( n )`: the allocator
returns the block at `p`, whose `n` words are value-initialised to zero, and
the block previously owned (`old`, if any) is released. -/
def make_unique (sz : Nat) (w : World) (old p n : Nat) : World :=
  { w with
    mem := fill_words sz w.mem p 0 n,
    heap := (p, n) :: w.heap.filter (fun b => b.1 != old) }

/-! ## `namespace mem` -/

/-- The loop of `mem::get_vtable_length`, started at `length`, with `fuel`
iterations available.  `length` is a `uint32_t`, so `length++` wraps. -/
def mem.get_vtable_length_loop (sz : Nat) (win : Bool) (m : Mem) (table : Nat) :
    Nat → Nat → Option Nat
  | 0, _ => none
  | fuel + 1, length =>
    if m (table + length * sz) = 0 then some length
    else if (if win then IS_INTRESOURCE (m (table + length * sz))
             else m (table + length * sz) == 0) then some length
    else mem.get_vtable_length_loop sz win m table fuel ((length + 1) % 2 ^ 32)

/-- The function `mem::get_vtable_length( table )`. -/
def mem.get_vtable_length (fuel sz : Nat) (win : Bool) (m : Mem) (table : Nat) : Option Nat :=
  mem.get_vtable_length_loop sz win m table fuel 0

/-! ## `struct mem_protect_t` -/

/-- The scoped protection object. -/
structure mem_protect_t where
  m_address : Nat
  m_size : Nat
  m_flags : Nat

/-- Constructor `mem_protect_t( address, size, flags )`. -/
def mem_protect_t.ctor (w : World) (address size flags : Nat) : mem_protect_t × World :=
  ({ m_address := address, m_size := size, m_flags := (VirtualProtect w address size flags).1 },
   (VirtualProtect w address size flags).2)

/-- Destructor `~mem_protect_t()`. -/
def mem_protect_t.dtor (self : mem_protect_t) (w : World) : World :=
  (VirtualProtect w self.m_address self.m_size self.m_flags).2

/-! ## `struct hook_t` -/

/-- The controller.  `m_table_length` is a `uint16_t`; `m_replace` is the
address held by the `std::unique_ptr` (`0` when it owns nothing). -/
structure hook_t where
  m_vtable : Nat
  m_table_length : Nat
  m_orig : Nat
  m_replace : Nat

/-- Constructors `hook_t( uintptr_t ptr )` and `hook_t( void* ptr )`. -/
def hook_t.ctor (ptr : Nat) : hook_t :=
  { m_vtable := ptr, m_table_length := 0, m_orig := 0, m_replace := 0 }

/-- The method `hook_t::init()`.  The result is `none` when the scan does not
finish within `fuel` iterations. -/
def hook_t.init (fuel sz : Nat) (win : Bool) (p : Nat) (h : hook_t) (w : World) :
    Option (Bool × hook_t × World) :=
  if h.m_vtable = 0 then some (false, h, w)
  else
    let protect := mem_protect_t.ctor w h.m_vtable sz PAGE_READWRITE
    let h1 := { h with m_orig := protect.2.mem h.m_vtable }
    match mem.get_vtable_length fuel sz win protect.2.mem h1.m_orig with
    | none => none
    | some length =>
      let h2 := { h1 with m_table_length := length % 2 ^ 16 }
      if h2.m_table_length = 0 then some (false, h2, protect.1.dtor protect.2)
      else
        let w1 := make_unique sz protect.2 h2.m_replace p (h2.m_table_length + 1)
        let h3 := { h2 with m_replace := p }
        let w2 := { w1 with
          mem := memset sz w1.mem h3.m_replace 0 (h3.m_table_length * sz + sz) }
        let w3 := { w2 with
          mem := memcpy sz w2.mem (h3.m_replace + 1 * sz) h3.m_orig (h3.m_table_length * sz) }
        let w4 := { w3 with
          mem := memcpy sz w3.mem h3.m_replace (h3.m_orig - 1 * sz) sz }
        let w5 := { w4 with
          mem := w4.mem.write h3.m_vtable (h3.m_replace + 1 * sz) }
        some (true, h3, protect.1.dtor w5)

/-- The method `hook_t::hook( index, replace_function )`; `index` is a
`uint16_t`. -/
def hook_t.hook (sz : Nat) (h : hook_t) (w : World) (index replace_function : Nat) :
    hook_t × World :=
  if index < 0 ∨ index > h.m_table_length then (h, w)
  else (h, { w with mem := w.mem.write (h.m_replace + (index + 1) * sz) replace_function })

/-- The method `hook_t::get_original< t >( index )`; the result is the raw
address, `0` for `nullptr`. -/
def hook_t.get_original (sz : Nat) (h : hook_t) (w : World) (index : Nat) : Nat :=
  if index < 0 ∨ index > h.m_table_length then 0
  else w.mem (h.m_orig + index * sz)

/-- The method `hook_t::unhook( index )`. -/
def hook_t.unhook (sz : Nat) (h : hook_t) (w : World) (index : Nat) : hook_t × World :=
  if index < 0 ∨ index > h.m_table_length then (h, w)
  else (h, { w with
    mem := w.mem.write (h.m_replace + (index + 1) * sz) (w.mem (h.m_orig + index * sz)) })

/-- The method `hook_t::unhook()` (restore the old table). -/
def hook_t.unhook_all (sz : Nat) (h : hook_t) (w : World) : hook_t × World :=
  if h.m_orig = 0 then (h, w)
  else
    let protect := mem_protect_t.ctor w h.m_vtable sz PAGE_READWRITE
    let w1 := { protect.2 with mem := protect.2.mem.write h.m_vtable h.m_orig }
    let h1 := { h with m_orig := 0 }
    (h1, protect.1.dtor w1)

/-- The memory after the stores of a successful `init`: the zeroed block at
`p`, the table copy, the type-info copy and the new table pointer. -/
def install_mem (sz : Nat) (m : Mem) (vt orig p len : Nat) : Mem :=
  (memcpy sz
    (memcpy sz
      (memset sz (fill_words sz m p 0 (len + 1)) p 0 (len * sz + sz))
      (p + 1 * sz) orig (len * sz))
    p (orig - 1 * sz) sz).write vt (p + 1 * sz)

/-! ## Sequences of slot operations -/

/-- A slot operation issued by a caller. -/
inductive SlotOp where
  | hook (index replace_function : Nat)
  | unhook (index : Nat)

/-- The index a slot operation is called with. -/
def SlotOp.index : SlotOp → Nat
  | .hook index _ => index
  | .unhook index => index

/-- Run one slot operation. -/
def SlotOp.run (sz : Nat) (s : hook_t × World) : SlotOp → hook_t × World
  | .hook index replace_function => s.1.hook sz s.2 index replace_function
  | .unhook index => s.1.unhook sz s.2 index

/-- Run a sequence of slot operations, first to last. -/
def runOps (sz : Nat) (s : hook_t × World) (ops : List SlotOp) : hook_t × World :=
  ops.foldl (SlotOp.run sz) s

/-! ## Vocabulary of the specification -/

/-- A valid table entry: non-zero and, on the reference platform, not a small
integer resource identifier. -/
def isValidEntry (win : Bool) (x : Nat) : Prop :=
  x ≠ 0 ∧ (win = true → 0x10000 ≤ x)

/-- A sentinel: zero or, on the reference platform, a resource identifier. -/
def isSentinel (win : Bool) (x : Nat) : Prop :=
  x = 0 ∨ (win = true ∧ x < 0x10000)

instance (win : Bool) (x : Nat) : Decidable (isValidEntry win x) :=
  inferInstanceAs (Decidable (x ≠ 0 ∧ (win = true → 0x10000 ≤ x)))

instance (win : Bool) (x : Nat) : Decidable (isSentinel win x) :=
  inferInstanceAs (Decidable (x = 0 ∨ (win = true ∧ x < 0x10000)))

/-- The situation of the installation claims: the object at `ptr` points to a
table at `orig` with `n` valid entries followed by a sentinel and preceded by
its type-info word, and the block the allocator hands out at `p` overlaps
neither the object's table-pointer word nor the original table, and the
object's table-pointer word lies outside the table. -/
structure Installable (sz : Nat) (win : Bool) (w : World) (ptr orig p n : Nat) : Prop where
  sz_pos : 0 < sz
  bound : ptr ≠ 0
  field : w.mem ptr = orig
  rtti : sz ≤ orig
  valid : ∀ k, k < n → isValidEntry win (w.mem (orig + k * sz))
  sentinel : isSentinel win (w.mem (orig + n * sz))
  n_pos : 1 ≤ n
  n_le : n ≤ 65535
  fresh_field : ptr + sz ≤ p ∨ p + (n + 1) * sz ≤ ptr
  fresh_table : orig + n * sz ≤ p ∨ p + (n + 1) * sz ≤ orig - sz
  apart : ptr + sz ≤ orig - sz ∨ orig + (n + 1) * sz ≤ ptr

/-! ## Example states -/

/-- Example memory (8-byte words): an object at `0x200000` whose table pointer
is `0x400008`; the table holds three entries, is preceded by the type-info word
`0x500000` and followed by the word `s`. -/
def demoMem (s : Nat) : Mem := fun a =>
  if a = 0x200000 then 0x400008
  else if a = 0x400000 then 0x500000
  else if a = 0x400008 then 0x401000
  else if a = 0x400010 then 0x401010
  else if a = 0x400018 then 0x401020
  else if a = 0x400020 then s
  else 0

/-- Example state around `demoMem`: read-only pages, no call logged, empty heap. -/
def demoWorld (s : Nat) : World :=
  { mem := demoMem s, prot := fun _ => 2, vp_calls := [], heap := [] }

/-- Example state whose object at `0x200000` points to a table at `0x400008`
that starts with the zero sentinel. -/
def emptyTableWorld : World :=
  { mem := fun a => if a = 0x200000 then 0x400008 else if a = 0x400000 then 0x500000 else 0,
    prot := fun _ => 2, vp_calls := [], heap := [] }

/-- Example memory (8-byte words): an object at `obj` whose table pointer is
`0x400008`; every word from the type-info word at `0x400000` up to the last of
the 65537 table entries holds `0x500000` plus its own address, and the word
after the table is zero. -/
def bigMem (obj : Nat) : Mem := fun a =>
  if a = obj then 0x400008
  else if 0x400000 ≤ a ∧ a < 0x400008 + 65537 * 8 then 0x500000 + a
  else 0

/-- Example state around `bigMem`. -/
def bigWorld (obj : Nat) : World :=
  { mem := bigMem obj, prot := fun _ => 2, vp_calls := [], heap := [] }

/-! ## The table scanner -/

theorem IS_INTRESOURCE_iff (r : Nat) : IS_INTRESOURCE r = true ↔ r < 0x10000 := by
  unfold IS_INTRESOURCE
  rw [Nat.shiftRight_eq_div_pow, beq_iff_eq]
  omega

theorem scan_stops_at_sentinel (sz : Nat) (win : Bool) (m : Mem) (table x : Nat) (fuel : Nat)
    (hs : isSentinel win (m (table + x * sz))) :
    mem.get_vtable_length_loop sz win m table (fuel + 1) x = some x := by
  unfold mem.get_vtable_length_loop
  rcases hs with h0 | ⟨hw, hlt⟩
  · simp [h0]
  · by_cases h0 : m (table + x * sz) = 0
    · simp [h0]
    · simp [h0, hw, (IS_INTRESOURCE_iff _).2 hlt]

theorem scan_steps_over_valid (sz : Nat) (win : Bool) (m : Mem) (table x : Nat) (fuel : Nat)
    (hv : isValidEntry win (m (table + x * sz))) :
    mem.get_vtable_length_loop sz win m table (fuel + 1) x =
      mem.get_vtable_length_loop sz win m table fuel ((x + 1) % 2 ^ 32) := by
  obtain ⟨h0, hw⟩ := hv
  conv_lhs => unfold mem.get_vtable_length_loop
  cases win with
  | false => simp [h0]
  | true =>
    have hge := hw rfl
    have hni : IS_INTRESOURCE (m (table + x * sz)) = false := by
      rw [Bool.eq_false_iff]
      intro hc
      have := (IS_INTRESOURCE_iff _).1 hc
      omega
    simp [h0, hni]

theorem scan_loop_exact (sz : Nat) (win : Bool) (m : Mem) (table n : Nat)
    (hn : n < 2 ^ 32)
    (hvalid : ∀ k, k < n → isValidEntry win (m (table + k * sz)))
    (hsent : isSentinel win (m (table + n * sz))) :
    ∀ fuel x, x ≤ n → n - x < fuel →
      mem.get_vtable_length_loop sz win m table fuel x = some n := by
  intro fuel
  induction fuel with
  | zero => intro x _ hf; omega
  | succ fuel ih =>
    intro x hx hf
    rcases Nat.lt_or_ge x n with hlt | hge
    · rw [scan_steps_over_valid sz win m table x fuel (hvalid x hlt)]
      have hmod : (x + 1) % 2 ^ 32 = x + 1 := Nat.mod_eq_of_lt (by omega)
      rw [hmod]
      exact ih (x + 1) (by omega) (by omega)
    · have hxn : x = n := by omega
      subst hxn
      exact scan_stops_at_sentinel sz win m table x fuel hsent

theorem scan_exact (fuel sz : Nat) (win : Bool) (m : Mem) (table n : Nat)
    (hn : n < 2 ^ 32)
    (hvalid : ∀ k, k < n → isValidEntry win (m (table + k * sz)))
    (hsent : isSentinel win (m (table + n * sz)))
    (hfuel : n < fuel) :
    mem.get_vtable_length fuel sz win m table = some n :=
  scan_loop_exact sz win m table n hn hvalid hsent fuel 0 (Nat.zero_le _) (by omega)

/-! ## Word-level stores -/

theorem write_same (m : Mem) (a v : Nat) : m.write a v a = v := by
  simp [Mem.write]

theorem write_other (m : Mem) (a v x : Nat) (hx : x ≠ a) : m.write a v x = m x := by
  simp [Mem.write, hx]

theorem splat_zero (k : Nat) : splat k 0 = 0 := by
  induction k with
  | zero => rfl
  | succ k ih => simp [splat, ih]

theorem stride_lt (sz k n : Nat) (hk : k < n) : k * sz + sz ≤ n * sz := by
  have h := Nat.mul_le_mul_right sz (Nat.succ_le_of_lt hk)
  rw [Nat.succ_mul] at h
  exact h

theorem fill_words_outside (sz : Nat) (m : Mem) (dest v n a : Nat)
    (ha : ∀ k, k < n → a ≠ dest + k * sz) : fill_words sz m dest v n a = m a := by
  induction n with
  | zero => rfl
  | succ n ih =>
    rw [fill_words, write_other _ _ _ _ (ha n (Nat.lt_succ_self n))]
    exact ih (fun k hk => ha k (Nat.lt_succ_of_lt hk))

theorem copy_words_outside (sz : Nat) (m0 m : Mem) (dest src n a : Nat)
    (ha : ∀ k, k < n → a ≠ dest + k * sz) : copy_words sz m0 m dest src n a = m a := by
  induction n with
  | zero => rfl
  | succ n ih =>
    rw [copy_words, write_other _ _ _ _ (ha n (Nat.lt_succ_self n))]
    exact ih (fun k hk => ha k (Nat.lt_succ_of_lt hk))

theorem copy_words_inside (sz : Nat) (m0 m : Mem) (dest src n k : Nat) (hsz : 0 < sz)
    (hk : k < n) : copy_words sz m0 m dest src n (dest + k * sz) = m0 (src + k * sz) := by
  induction n with
  | zero => omega
  | succ n ih =>
    rw [copy_words]
    rcases Nat.lt_or_ge k n with hlt | hge
    · have hne : dest + k * sz ≠ dest + n * sz := by
        have := stride_lt sz k n hlt
        omega
      rw [write_other _ _ _ _ hne]
      exact ih hlt
    · have hkn : k = n := by omega
      rw [hkn, write_same]

/-- An address outside the byte range `[dest, dest + n * sz)` is none of the
`n` words stored from `dest`. -/
theorem outside_block (sz dest n a : Nat) (hsz : 0 < sz) (ha : a < dest ∨ dest + n * sz ≤ a) :
    ∀ k, k < n → a ≠ dest + k * sz := by
  intro k hk
  have := stride_lt sz k n hk
  omega

/-! ## The memory left by a successful `init` -/

theorem install_mem_eq (sz : Nat) (m : Mem) (vt orig p len : Nat) (hsz : 0 < sz) :
    install_mem sz m vt orig p len =
      (copy_words sz
        (copy_words sz
          (fill_words sz (fill_words sz m p 0 (len + 1)) p 0 (len + 1))
          (fill_words sz (fill_words sz m p 0 (len + 1)) p 0 (len + 1))
          (p + sz) orig len)
        (copy_words sz
          (fill_words sz (fill_words sz m p 0 (len + 1)) p 0 (len + 1))
          (fill_words sz (fill_words sz m p 0 (len + 1)) p 0 (len + 1))
          (p + sz) orig len)
        p (orig - sz) 1).write vt (p + sz) := by
  have h1 : (len * sz + sz) / sz = len + 1 := by
    rw [← Nat.succ_mul]
    exact Nat.mul_div_cancel _ hsz
  have h2 : len * sz / sz = len := Nat.mul_div_cancel _ hsz
  have h3 : sz / sz = 1 := Nat.div_self hsz
  simp only [install_mem, memcpy, memset, h1, h2, h3, splat_zero, Nat.one_mul]

theorem install_mem_field (sz : Nat) (m : Mem) (vt orig p len : Nat) :
    install_mem sz m vt orig p len vt = p + sz := by
  simp [install_mem, write_same]

theorem install_mem_outside (sz : Nat) (m : Mem) (vt orig p len a : Nat) (hsz : 0 < sz)
    (hvt : a ≠ vt) (ha : a < p ∨ p + (len + 1) * sz ≤ a) :
    install_mem sz m vt orig p len a = m a := by
  have hout := outside_block sz p (len + 1) a hsz ha
  rw [install_mem_eq sz m vt orig p len hsz, write_other _ _ _ _ hvt]
  rw [copy_words_outside, copy_words_outside, fill_words_outside _ _ _ _ _ _ hout,
    fill_words_outside _ _ _ _ _ _ hout]
  · intro k hk
    have := hout (k + 1) (by omega)
    rw [Nat.succ_mul] at this
    omega
  · intro k hk
    have := hout 0 (by omega)
    have hk0 : k = 0 := by omega
    subst hk0
    simpa using this

theorem install_mem_rtti (sz : Nat) (m : Mem) (vt orig p len : Nat) (hsz : 0 < sz)
    (hr : sz ≤ orig)
    (hvt : vt + sz ≤ p ∨ p + (len + 1) * sz ≤ vt)
    (horig : orig + len * sz ≤ p ∨ p + (len + 1) * sz ≤ orig - sz) :
    install_mem sz m vt orig p len p = m (orig - sz) := by
  have hlen : (len + 1) * sz = len * sz + sz := Nat.succ_mul len sz
  have hpv : p ≠ vt := by omega
  have hT : orig - sz < p ∨ p + (len + 1) * sz ≤ orig - sz := by omega
  have hout := outside_block sz p (len + 1) (orig - sz) hsz hT
  rw [install_mem_eq sz m vt orig p len hsz, write_other _ _ _ _ hpv]
  have h0 := copy_words_inside sz
    (copy_words sz
      (fill_words sz (fill_words sz m p 0 (len + 1)) p 0 (len + 1))
      (fill_words sz (fill_words sz m p 0 (len + 1)) p 0 (len + 1))
      (p + sz) orig len)
    (copy_words sz
      (fill_words sz (fill_words sz m p 0 (len + 1)) p 0 (len + 1))
      (fill_words sz (fill_words sz m p 0 (len + 1)) p 0 (len + 1))
      (p + sz) orig len)
    p (orig - sz) 1 0 hsz (by omega)
  simp only [Nat.zero_mul, Nat.add_zero] at h0
  rw [h0, copy_words_outside, fill_words_outside _ _ _ _ _ _ hout,
    fill_words_outside _ _ _ _ _ _ hout]
  intro k hk
  have := hout (k + 1) (by omega)
  rw [Nat.succ_mul] at this
  omega

theorem install_mem_slot (sz : Nat) (m : Mem) (vt orig p len k : Nat) (hsz : 0 < sz)
    (hk : k < len)
    (hvt : vt + sz ≤ p ∨ p + (len + 1) * sz ≤ vt)
    (horig : orig + len * sz ≤ p ∨ p + (len + 1) * sz ≤ orig - sz) :
    install_mem sz m vt orig p len (p + (k + 1) * sz) = m (orig + k * sz) := by
  have hlen : (len + 1) * sz = len * sz + sz := Nat.succ_mul len sz
  have hk1 : (k + 1) * sz = k * sz + sz := Nat.succ_mul k sz
  have hkl := stride_lt sz k len hk
  have hpv : p + (k + 1) * sz ≠ vt := by omega
  have hsrc : orig + k * sz < p ∨ p + (len + 1) * sz ≤ orig + k * sz := by omega
  have hout := outside_block sz p (len + 1) (orig + k * sz) hsz hsrc
  rw [install_mem_eq sz m vt orig p len hsz, write_other _ _ _ _ hpv]
  rw [copy_words_outside]
  · have hslot : p + (k + 1) * sz = p + sz + k * sz := by omega
    rw [hslot, copy_words_inside _ _ _ _ _ _ _ hsz hk,
      fill_words_outside _ _ _ _ _ _ hout, fill_words_outside _ _ _ _ _ _ hout]
  · intro j hj
    have hj0 : j = 0 := by omega
    subst hj0
    omega

/-! ## The three outcomes of `init` -/

theorem VirtualProtect_mem (w : World) (a s f : Nat) : (VirtualProtect w a s f).2.mem = w.mem :=
  rfl

theorem init_null (fuel sz : Nat) (win : Bool) (p : Nat) (h : hook_t) (w : World)
    (hvt : h.m_vtable = 0) : h.init fuel sz win p w = some (false, h, w) := by
  simp [hook_t.init, hvt]

theorem init_fail (fuel sz : Nat) (win : Bool) (p : Nat) (h : hook_t) (w : World) (length : Nat)
    (hvt : h.m_vtable ≠ 0)
    (hscan : mem.get_vtable_length fuel sz win w.mem (w.mem h.m_vtable) = some length)
    (hlen : length % 2 ^ 16 = 0) :
    ∃ w1, h.init fuel sz win p w =
        some (false, { h with m_orig := w.mem h.m_vtable, m_table_length := 0 }, w1) ∧
      w1.mem = w.mem ∧ w1.heap = w.heap := by
  simp only [hook_t.init, hvt, if_false, mem_protect_t.ctor, VirtualProtect_mem, hscan, hlen,
    if_true]
  exact ⟨_, rfl, rfl, rfl⟩

theorem init_ok (fuel sz : Nat) (win : Bool) (p : Nat) (h : hook_t) (w : World) (length : Nat)
    (hvt : h.m_vtable ≠ 0)
    (hscan : mem.get_vtable_length fuel sz win w.mem (w.mem h.m_vtable) = some length)
    (hlen : length % 2 ^ 16 ≠ 0) :
    ∃ w1, h.init fuel sz win p w =
        some (true, { h with m_orig := w.mem h.m_vtable, m_table_length := length % 2 ^ 16,
                             m_replace := p }, w1) ∧
      w1.mem = install_mem sz w.mem h.m_vtable (w.mem h.m_vtable) p (length % 2 ^ 16) ∧
      w1.heap = (p, length % 2 ^ 16 + 1) :: w.heap.filter (fun b => b.1 != h.m_replace) := by
  simp only [hook_t.init, hvt, if_false, mem_protect_t.ctor, VirtualProtect_mem, hscan, hlen]
  exact ⟨_, rfl, rfl, rfl⟩

/-- Inversion of a successful `init`. -/
theorem init_true_inv (fuel sz : Nat) (win : Bool) (p : Nat) (h h1 : hook_t) (w w1 : World)
    (hinit : h.init fuel sz win p w = some (true, h1, w1)) :
    h.m_vtable ≠ 0 ∧ ∃ length,
      mem.get_vtable_length fuel sz win w.mem (w.mem h.m_vtable) = some length ∧
      length % 2 ^ 16 ≠ 0 ∧
      h1 = { h with m_orig := w.mem h.m_vtable, m_table_length := length % 2 ^ 16,
                    m_replace := p } ∧
      w1.mem = install_mem sz w.mem h.m_vtable (w.mem h.m_vtable) p (length % 2 ^ 16) ∧
      w1.heap = (p, length % 2 ^ 16 + 1) :: w.heap.filter (fun b => b.1 != h.m_replace) := by
  by_cases hvt : h.m_vtable = 0
  · rw [init_null fuel sz win p h w hvt] at hinit
    simp at hinit
  · refine ⟨hvt, ?_⟩
    cases hscan : mem.get_vtable_length fuel sz win w.mem (w.mem h.m_vtable) with
    | none =>
      simp [hook_t.init, hvt, mem_protect_t.ctor, VirtualProtect_mem, hscan] at hinit
    | some length =>
      by_cases hlen : length % 2 ^ 16 = 0
      · obtain ⟨w2, h2, _⟩ := init_fail fuel sz win p h w length hvt hscan hlen
        rw [h2] at hinit
        simp at hinit
      · obtain ⟨w2, h2, hm, hh⟩ := init_ok fuel sz win p h w length hvt hscan hlen
        rw [h2] at hinit
        simp only [Option.some.injEq, Prod.mk.injEq, true_and] at hinit
        obtain ⟨rfl, rfl⟩ := hinit
        exact ⟨length, rfl, hlen, rfl, hm, hh⟩

/-! ## Slot operations: what they leave alone -/

theorem hook_fst (sz : Nat) (h : hook_t) (w : World) (i r : Nat) : (h.hook sz w i r).1 = h := by
  unfold hook_t.hook
  split <;> rfl

theorem unhook_fst (sz : Nat) (h : hook_t) (w : World) (i : Nat) : (h.unhook sz w i).1 = h := by
  unfold hook_t.unhook
  split <;> rfl

theorem hook_mem_of_ne (sz : Nat) (h : hook_t) (w : World) (i r a : Nat)
    (ha : a ≠ h.m_replace + (i + 1) * sz) : (h.hook sz w i r).2.mem a = w.mem a := by
  unfold hook_t.hook
  split
  · rfl
  · exact write_other _ _ _ _ ha

theorem unhook_mem_of_ne (sz : Nat) (h : hook_t) (w : World) (i a : Nat)
    (ha : a ≠ h.m_replace + (i + 1) * sz) : (h.unhook sz w i).2.mem a = w.mem a := by
  unfold hook_t.unhook
  split
  · rfl
  · exact write_other _ _ _ _ ha

theorem hook_mem_slot (sz : Nat) (h : hook_t) (w : World) (i r : Nat)
    (hi : i ≤ h.m_table_length) :
    (h.hook sz w i r).2.mem (h.m_replace + (i + 1) * sz) = r := by
  have hg : ¬ (i < 0 ∨ i > h.m_table_length) := by omega
  simp only [hook_t.hook, hg, if_false]
  exact write_same _ _ _

theorem unhook_mem_slot (sz : Nat) (h : hook_t) (w : World) (i : Nat)
    (hi : i ≤ h.m_table_length) :
    (h.unhook sz w i).2.mem (h.m_replace + (i + 1) * sz) = w.mem (h.m_orig + i * sz) := by
  have hg : ¬ (i < 0 ∨ i > h.m_table_length) := by omega
  simp only [hook_t.unhook, hg, if_false]
  exact write_same _ _ _

theorem hook_rest (sz : Nat) (h : hook_t) (w : World) (i r : Nat) :
    (h.hook sz w i r).2.prot = w.prot ∧ (h.hook sz w i r).2.vp_calls = w.vp_calls ∧
      (h.hook sz w i r).2.heap = w.heap := by
  unfold hook_t.hook
  split <;> exact ⟨rfl, rfl, rfl⟩

theorem run_fst (sz : Nat) (s : hook_t × World) (op : SlotOp) : (op.run sz s).1 = s.1 := by
  cases op with
  | hook i r => exact hook_fst sz s.1 s.2 i r
  | unhook i => exact unhook_fst sz s.1 s.2 i

theorem run_mem_of_ne (sz : Nat) (s : hook_t × World) (op : SlotOp) (a : Nat)
    (ha : a ≠ s.1.m_replace + (op.index + 1) * sz) : (op.run sz s).2.mem a = s.2.mem a := by
  cases op with
  | hook i r => exact hook_mem_of_ne sz s.1 s.2 i r a ha
  | unhook i => exact unhook_mem_of_ne sz s.1 s.2 i a ha

theorem runOps_fst (sz : Nat) (ops : List SlotOp) :
    ∀ s : hook_t × World, (runOps sz s ops).1 = s.1 := by
  induction ops with
  | nil => intro s; rfl
  | cons op ops ih =>
    intro s
    show (runOps sz (op.run sz s) ops).1 = s.1
    rw [ih, run_fst]

theorem runOps_mem_of_ne (sz : Nat) (a : Nat) (ops : List SlotOp) :
    ∀ s : hook_t × World, (∀ op, op ∈ ops → a ≠ s.1.m_replace + (op.index + 1) * sz) →
      (runOps sz s ops).2.mem a = s.2.mem a := by
  induction ops with
  | nil => intro s _; rfl
  | cons op ops ih =>
    intro s ha
    show (runOps sz (op.run sz s) ops).2.mem a = s.2.mem a
    rw [ih, run_mem_of_ne sz s op a (ha op (List.mem_cons_self _ _))]
    intro op2 hop2
    rw [run_fst]
    exact ha op2 (List.mem_cons_of_mem _ hop2)

/-- Shadow slot 0 is not the slot of any index: `index + 1` is never 0. -/
theorem slot_zero_ne (sz p i : Nat) (hsz : 0 < sz) : p ≠ p + (i + 1) * sz := by
  have : (i + 1) * sz = i * sz + sz := Nat.succ_mul i sz
  omega

/-- Under the installation hypotheses, the words of the original table, its
type-info word and the object's table-pointer word are not shadow slots of
in-range indices. -/
theorem slot_ne_of_outside (sz p n j a : Nat) (hsz : 0 < sz) (hj : j < n)
    (ha : a < p ∨ p + (n + 1) * sz ≤ a) : a ≠ p + (j + 1) * sz := by
  have h1 := stride_lt sz (j + 1) (n + 1) (by omega)
  omega

/-! ## The installed state -/

theorem init_of_installable (fuel sz : Nat) (win : Bool) (w : World) (ptr orig p n : Nat)
    (hs : Installable sz win w ptr orig p n) (hfuel : n < fuel) :
    ∃ w1, (hook_t.ctor ptr).init fuel sz win p w =
        some (true, { m_vtable := ptr, m_table_length := n, m_orig := orig, m_replace := p },
          w1) ∧
      w1.mem = install_mem sz w.mem ptr orig p n ∧
      w1.heap = (p, n + 1) :: w.heap.filter (fun b => b.1 != 0) := by
  obtain ⟨hsz, hb, hf, hr, hv, hse, hn1, hn2, hfv, hft, _⟩ := hs
  subst hf
  have hmod : n % 2 ^ 16 = n := Nat.mod_eq_of_lt (by omega)
  have hscan : mem.get_vtable_length fuel sz win w.mem (w.mem (hook_t.ctor ptr).m_vtable) =
      some n := scan_exact fuel sz win w.mem (w.mem ptr) n (by omega) hv hse hfuel
  obtain ⟨w1, hinit, hmem, hheap⟩ :=
    init_ok fuel sz win p (hook_t.ctor ptr) w n hb hscan (by omega)
  rw [hmod] at hinit hmem hheap
  exact ⟨w1, hinit, hmem, hheap⟩

theorem table_word_outside (sz : Nat) (win : Bool) (w : World) (ptr orig p n i : Nat)
    (hs : Installable sz win w ptr orig p n) (hi : i < n) :
    (orig + i * sz < p ∨ p + (n + 1) * sz ≤ orig + i * sz) ∧ orig + i * sz ≠ ptr := by
  have h1 := stride_lt sz i n hi
  have h2 : (n + 1) * sz = n * sz + sz := Nat.succ_mul n sz
  have hsz := hs.sz_pos
  have hr := hs.rtti
  have hft := hs.fresh_table
  have hap := hs.apart
  constructor <;> omega

theorem install_mem_table (sz : Nat) (win : Bool) (w : World) (ptr orig p n i : Nat)
    (hs : Installable sz win w ptr orig p n) (hi : i < n) :
    install_mem sz w.mem ptr orig p n (orig + i * sz) = w.mem (orig + i * sz) :=
  install_mem_outside sz w.mem ptr orig p n _ hs.sz_pos
    (table_word_outside sz win w ptr orig p n i hs hi).2
    (table_word_outside sz win w ptr orig p n i hs hi).1

/-- After `init` and in-range slot operations the words of the original table
are the ones held before `init`. -/
theorem table_after_ops (sz : Nat) (win : Bool) (w w1 : World) (ptr orig p n i : Nat)
    (hs : Installable sz win w ptr orig p n)
    (hmem : w1.mem = install_mem sz w.mem ptr orig p n)
    (ops : List SlotOp) (hops : ∀ op, op ∈ ops → op.index < n) (hi : i < n) :
    (runOps sz ({ m_vtable := ptr, m_table_length := n, m_orig := orig, m_replace := p }, w1)
      ops).2.mem (orig + i * sz) = w.mem (orig + i * sz) := by
  rw [runOps_mem_of_ne, hmem]
  · exact install_mem_table sz win w ptr orig p n i hs hi
  · intro op hop
    exact slot_ne_of_outside sz p n op.index _ hs.sz_pos (hops op hop)
      (table_word_outside sz win w ptr orig p n i hs hi).1

theorem field_outside (sz : Nat) (win : Bool) (w : World) (ptr orig p n : Nat)
    (hs : Installable sz win w ptr orig p n) : ptr < p ∨ p + (n + 1) * sz ≤ ptr := by
  have hsz := hs.sz_pos
  have hfv := hs.fresh_field
  omega

/-- After `init` and in-range slot operations the object's table-pointer word
still holds the address of `Shadow[1]`. -/
theorem field_after_ops (sz : Nat) (win : Bool) (w w1 : World) (ptr orig p n : Nat)
    (hs : Installable sz win w ptr orig p n)
    (hmem : w1.mem = install_mem sz w.mem ptr orig p n)
    (ops : List SlotOp) (hops : ∀ op, op ∈ ops → op.index < n) :
    (runOps sz ({ m_vtable := ptr, m_table_length := n, m_orig := orig, m_replace := p }, w1)
      ops).2.mem ptr = p + sz := by
  rw [runOps_mem_of_ne, hmem]
  · exact install_mem_field sz w.mem ptr orig p n
  · intro op hop
    exact slot_ne_of_outside sz p n op.index _ hs.sz_pos (hops op hop)
      (field_outside sz win w ptr orig p n hs)

/-- The slot operations on a state whose table-pointer word and original
entry are known: `hook` makes the dispatched entry `r`, a following `unhook`
makes it the original entry again. -/
theorem hook_unhook_entry (sz : Nat) (win : Bool) (w : World) (ptr orig p n i r : Nat)
    (hs : Installable sz win w ptr orig p n) (hi : i < n) (sw : World)
    (hfield : sw.mem ptr = p + sz) (htable : sw.mem (orig + i * sz) = w.mem (orig + i * sz)) :
    ((hook_t.mk ptr n orig p).hook sz sw i r).2.mem
        (((hook_t.mk ptr n orig p).hook sz sw i r).2.mem ptr + i * sz) = r ∧
      ((hook_t.mk ptr n orig p).unhook sz ((hook_t.mk ptr n orig p).hook sz sw i r).2 i).2.mem
        (((hook_t.mk ptr n orig p).unhook sz
          ((hook_t.mk ptr n orig p).hook sz sw i r).2 i).2.mem ptr + i * sz) =
        w.mem (orig + i * sz) := by
  have hslot : p + sz + i * sz = p + (i + 1) * sz := by
    rw [Nat.succ_mul]; omega
  have hpn : ptr ≠ p + (i + 1) * sz :=
    slot_ne_of_outside sz p n i _ hs.sz_pos hi (field_outside sz win w ptr orig p n hs)
  have htn : orig + i * sz ≠ p + (i + 1) * sz :=
    slot_ne_of_outside sz p n i _ hs.sz_pos hi (table_word_outside sz win w ptr orig p n i hs hi).1
  have h1 : ((hook_t.mk ptr n orig p).hook sz sw i r).2.mem ptr = p + sz := by
    rw [hook_mem_of_ne sz _ sw i r ptr hpn, hfield]
  have h2 : ((hook_t.mk ptr n orig p).unhook sz
      ((hook_t.mk ptr n orig p).hook sz sw i r).2 i).2.mem ptr = p + sz := by
    rw [unhook_mem_of_ne sz _ _ i ptr hpn, h1]
  rw [h1, h2, hslot]
  constructor
  · exact hook_mem_slot sz (hook_t.mk ptr n orig p) sw i r (Nat.le_of_lt hi)
  · rw [unhook_mem_slot sz (hook_t.mk ptr n orig p) _ i (Nat.le_of_lt hi)]
    show ((hook_t.mk ptr n orig p).hook sz sw i r).2.mem (orig + i * sz) = _
    rw [hook_mem_of_ne sz _ sw i r _ htn, htable]

/-- Right after `init`, `hook` followed by `unhook` of the same in-range slot
gives back the memory `init` left. -/
theorem hook_unhook_restores (sz : Nat) (win : Bool) (w w1 : World) (ptr orig p n i r : Nat)
    (hs : Installable sz win w ptr orig p n) (hi : i < n)
    (hmem : w1.mem = install_mem sz w.mem ptr orig p n) :
    ((hook_t.mk ptr n orig p).unhook sz ((hook_t.mk ptr n orig p).hook sz w1 i r).2 i).2.mem =
      w1.mem := by
  have htn : orig + i * sz ≠ p + (i + 1) * sz :=
    slot_ne_of_outside sz p n i _ hs.sz_pos hi (table_word_outside sz win w ptr orig p n i hs hi).1
  funext a
  by_cases ha : a = p + (i + 1) * sz
  · subst ha
    rw [unhook_mem_slot sz (hook_t.mk ptr n orig p) _ i (Nat.le_of_lt hi)]
    show ((hook_t.mk ptr n orig p).hook sz w1 i r).2.mem (orig + i * sz) = _
    rw [hook_mem_of_ne sz _ w1 i r _ htn, hmem,
      install_mem_table sz win w ptr orig p n i hs hi,
      install_mem_slot sz w.mem ptr orig p n i hs.sz_pos hi hs.fresh_field hs.fresh_table]
  · rw [unhook_mem_of_ne sz _ _ i a ha, hook_mem_of_ne sz _ w1 i r a ha]

/-! ## A table longer than the 16-bit length field -/

theorem big_valid (obj : Nat) (hobj : obj < 0x400000) :
    ∀ k, k < 65537 → isValidEntry true ((bigWorld obj).mem (0x400008 + k * 8)) := by
  intro k hk
  have h1 : ¬ (0x400008 + k * 8 = obj) := by omega
  have h2 : 0x400000 ≤ 0x400008 + k * 8 ∧ 0x400008 + k * 8 < 0x400008 + 65537 * 8 := by omega
  show isValidEntry true (bigMem obj (0x400008 + k * 8))
  unfold bigMem
  rw [if_neg h1, if_pos h2]
  exact ⟨by omega, fun _ => by omega⟩

theorem big_sentinel (obj : Nat) (hobj : obj < 0x400000) :
    isSentinel true ((bigWorld obj).mem (0x400008 + 65537 * 8)) := by
  have h1 : ¬ (0x400008 + 65537 * 8 = obj) := by omega
  have h2 : ¬ (0x400000 ≤ 0x400008 + 65537 * 8 ∧ 0x400008 + 65537 * 8 < 0x400008 + 65537 * 8) := by
    omega
  show isSentinel true (bigMem obj (0x400008 + 65537 * 8))
  unfold bigMem
  rw [if_neg h1, if_neg h2]
  exact Or.inl rfl

/-- On the table of 65537 entries `init` succeeds with a recorded length of 1
and a shadow block of 2 words. -/
theorem big_init (obj p : Nat) (hobj : obj < 0x400000) (hne : obj ≠ 0) :
    ∃ w1, (hook_t.ctor obj).init 70000 8 true p (bigWorld obj) =
        some (true, { m_vtable := obj, m_table_length := 1, m_orig := 0x400008, m_replace := p },
          w1) ∧
      w1.mem = install_mem 8 (bigMem obj) obj 0x400008 p 1 ∧
      w1.heap = [(p, 2)] := by
  have hfield : (bigWorld obj).mem obj = 0x400008 := by
    show bigMem obj obj = 0x400008
    unfold bigMem
    rw [if_pos rfl]
  have hscan : mem.get_vtable_length 70000 8 true (bigWorld obj).mem
      ((bigWorld obj).mem (hook_t.ctor obj).m_vtable) = some 65537 := by
    show mem.get_vtable_length 70000 8 true (bigWorld obj).mem ((bigWorld obj).mem obj) = _
    rw [hfield]
    exact scan_exact 70000 8 true (bigWorld obj).mem 0x400008 65537 (by decide)
      (big_valid obj hobj) (big_sentinel obj hobj) (by decide)
  obtain ⟨w1, hinit, hmem, hheap⟩ :=
    init_ok 70000 8 true p (hook_t.ctor obj) (bigWorld obj) 65537 hne hscan (by decide)
  have hfield2 : (bigWorld obj).mem (hook_t.ctor obj).m_vtable = 0x400008 := hfield
  have hmod : 65537 % 2 ^ 16 = 1 := by decide
  rw [hfield2, hmod] at hinit hmem
  rw [hmod] at hheap
  exact ⟨w1, hinit, hmem, hheap⟩

theorem bigMem_outside (obj a : Nat) (hobj : a ≠ obj) (ha : a < 0x400000) : bigMem obj a = 0 := by
  have h2 : ¬ (0x400000 ≤ a ∧ a < 0x400008 + 65537 * 8) := by omega
  unfold bigMem
  rw [if_neg hobj, if_neg h2]

/-! ## `unhook()` and failed `init` -/

theorem unhook_all_done (sz : Nat) (h : hook_t) (w : World) (horig : h.m_orig = 0) :
    h.unhook_all sz w = (h, w) := by
  simp [hook_t.unhook_all, horig]

theorem unhook_all_restore (sz : Nat) (h : hook_t) (w : World) (horig : h.m_orig ≠ 0) :
    (h.unhook_all sz w).2.mem h.m_vtable = h.m_orig ∧ (h.unhook_all sz w).1.m_orig = 0 := by
  simp only [hook_t.unhook_all, horig, if_false]
  exact ⟨write_same _ _ _, trivial⟩

/-- Inversion of a failed `init`. -/
theorem init_false_inv (fuel sz : Nat) (win : Bool) (p : Nat) (h h1 : hook_t) (w w1 : World)
    (hinit : h.init fuel sz win p w = some (false, h1, w1)) :
    (h.m_vtable = 0 ∧ h1 = h ∧ w1 = w) ∨
    (h.m_vtable ≠ 0 ∧ h1 = { h with m_orig := w.mem h.m_vtable, m_table_length := 0 } ∧
      w1.mem = w.mem ∧ w1.heap = w.heap) := by
  by_cases hvt : h.m_vtable = 0
  · rw [init_null fuel sz win p h w hvt] at hinit
    simp only [Option.some.injEq, Prod.mk.injEq, true_and] at hinit
    exact Or.inl ⟨hvt, hinit.1.symm, hinit.2.symm⟩
  · right
    refine ⟨hvt, ?_⟩
    cases hscan : mem.get_vtable_length fuel sz win w.mem (w.mem h.m_vtable) with
    | none =>
      simp [hook_t.init, hvt, mem_protect_t.ctor, VirtualProtect_mem, hscan] at hinit
    | some length =>
      by_cases hlen : length % 2 ^ 16 = 0
      · obtain ⟨w2, h2, hm, hh⟩ := init_fail fuel sz win p h w length hvt hscan hlen
        rw [h2] at hinit
        simp only [Option.some.injEq, Prod.mk.injEq, true_and] at hinit
        obtain ⟨rfl, rfl⟩ := hinit
        exact ⟨rfl, hm, hh⟩
      · obtain ⟨w2, h2, _⟩ := init_ok fuel sz win p h w length hvt hscan hlen
        rw [h2] at hinit
        simp at hinit

/-! ## The protection scope -/

/-- A scope opened on `w` and closed on a state with the protection map the
constructor left: the range gets back the protection its first address had,
and the two calls are logged. -/
theorem scope_closed (w w2 : World) (a s : Nat)
    (hprot : w2.prot = (mem_protect_t.ctor w a s PAGE_READWRITE).2.prot)
    (hlog : w2.vp_calls = (mem_protect_t.ctor w a s PAGE_READWRITE).2.vp_calls) :
    (∀ x, ((mem_protect_t.ctor w a s PAGE_READWRITE).1.dtor w2).prot x =
      if a ≤ x ∧ x < a + s then w.prot a else w.prot x) ∧
    ((mem_protect_t.ctor w a s PAGE_READWRITE).1.dtor w2).vp_calls =
      w.vp_calls ++ [(a, s, PAGE_READWRITE), (a, s, w.prot a)] := by
  constructor
  · intro x
    show (if a ≤ x ∧ x < a + s then w.prot a else w2.prot x) = _
    rw [hprot]
    show (if a ≤ x ∧ x < a + s then w.prot a
      else if a ≤ x ∧ x < a + s then PAGE_READWRITE else w.prot x) = _
    by_cases hx : a ≤ x ∧ x < a + s
    · rw [if_pos hx, if_pos hx]
    · rw [if_neg hx, if_neg hx, if_neg hx]
  · show w2.vp_calls ++ [(a, s, w.prot a)] = _
    rw [hlog]
    show (w.vp_calls ++ [(a, s, PAGE_READWRITE)]) ++ [(a, s, w.prot a)] = _
    rw [List.append_assoc]
    rfl

/-- Restoring the range leaves every address whose protection agreed with that
of the first address of the range as it was. -/
theorem scope_prot_same (w : World) (a s x : Nat) (v : Nat)
    (hv : v = if a ≤ x ∧ x < a + s then w.prot a else w.prot x)
    (hx : a ≤ x → x < a + s → w.prot x = w.prot a) : v = w.prot x := by
  rw [hv]
  by_cases hr : a ≤ x ∧ x < a + s
  · rw [if_pos hr, hx hr.1 hr.2]
  · rw [if_neg hr]

theorem init_fail_scope (fuel sz : Nat) (win : Bool) (p : Nat) (h : hook_t) (w : World)
    (length : Nat) (hvt : h.m_vtable ≠ 0)
    (hscan : mem.get_vtable_length fuel sz win w.mem (w.mem h.m_vtable) = some length)
    (hlen : length % 2 ^ 16 = 0) :
    ∃ w1, h.init fuel sz win p w =
        some (false, { h with m_orig := w.mem h.m_vtable, m_table_length := 0 }, w1) ∧
      w1.mem = w.mem ∧
      (∀ x, w1.prot x =
        if h.m_vtable ≤ x ∧ x < h.m_vtable + sz then w.prot h.m_vtable else w.prot x) ∧
      w1.vp_calls = w.vp_calls ++
        [(h.m_vtable, sz, PAGE_READWRITE), (h.m_vtable, sz, w.prot h.m_vtable)] := by
  have hsc := scope_closed w (mem_protect_t.ctor w h.m_vtable sz PAGE_READWRITE).2 h.m_vtable sz
    rfl rfl
  simp only [hook_t.init, hvt, if_false, mem_protect_t.ctor, VirtualProtect_mem, hscan, hlen,
    if_true]
  exact ⟨_, rfl, rfl, hsc.1, hsc.2⟩

theorem init_ok_scope (fuel sz : Nat) (win : Bool) (p : Nat) (h : hook_t) (w : World)
    (length : Nat) (hvt : h.m_vtable ≠ 0)
    (hscan : mem.get_vtable_length fuel sz win w.mem (w.mem h.m_vtable) = some length)
    (hlen : length % 2 ^ 16 ≠ 0) :
    ∃ w1, h.init fuel sz win p w =
        some (true, { h with m_orig := w.mem h.m_vtable, m_table_length := length % 2 ^ 16,
                             m_replace := p }, w1) ∧
      (∀ x, w1.prot x =
        if h.m_vtable ≤ x ∧ x < h.m_vtable + sz then w.prot h.m_vtable else w.prot x) ∧
      w1.vp_calls = w.vp_calls ++
        [(h.m_vtable, sz, PAGE_READWRITE), (h.m_vtable, sz, w.prot h.m_vtable)] := by
  simp only [hook_t.init, hvt, if_false, mem_protect_t.ctor, VirtualProtect_mem, hscan, hlen]
  refine ⟨_, rfl, ?_⟩
  exact scope_closed w _ h.m_vtable sz rfl rfl

theorem unhook_all_scope (sz : Nat) (h : hook_t) (w : World) (horig : h.m_orig ≠ 0) :
    (∀ x, (h.unhook_all sz w).2.prot x =
      if h.m_vtable ≤ x ∧ x < h.m_vtable + sz then w.prot h.m_vtable else w.prot x) ∧
    (h.unhook_all sz w).2.vp_calls = w.vp_calls ++
      [(h.m_vtable, sz, PAGE_READWRITE), (h.m_vtable, sz, w.prot h.m_vtable)] := by
  simp only [hook_t.unhook_all, horig, if_false]
  exact scope_closed w _ h.m_vtable sz rfl rfl

/-- Whatever `init` returns, an address whose protection agreed with that of
the object's table-pointer word (or that lies outside that word) has the
protection it had before the call. -/
theorem init_some_prot (fuel sz : Nat) (win : Bool) (p : Nat) (h h1 : hook_t) (w w1 : World)
    (b : Bool) (hinit : h.init fuel sz win p w = some (b, h1, w1)) (x : Nat)
    (hx : h.m_vtable ≤ x → x < h.m_vtable + sz → w.prot x = w.prot h.m_vtable) :
    w1.prot x = w.prot x := by
  by_cases hvt : h.m_vtable = 0
  · rw [init_null fuel sz win p h w hvt] at hinit
    simp only [Option.some.injEq, Prod.mk.injEq] at hinit
    rw [← hinit.2.2]
  · cases hscan : mem.get_vtable_length fuel sz win w.mem (w.mem h.m_vtable) with
    | none =>
      simp [hook_t.init, hvt, mem_protect_t.ctor, VirtualProtect_mem, hscan] at hinit
    | some length =>
      by_cases hlen : length % 2 ^ 16 = 0
      · obtain ⟨w2, h2, _, hp, _⟩ := init_fail_scope fuel sz win p h w length hvt hscan hlen
        rw [h2] at hinit
        simp only [Option.some.injEq, Prod.mk.injEq] at hinit
        rw [← hinit.2.2]
        exact scope_prot_same w h.m_vtable sz x _ (hp x) hx
      · obtain ⟨w2, h2, hp, _⟩ := init_ok_scope fuel sz win p h w length hvt hscan hlen
        rw [h2] at hinit
        simp only [Option.some.injEq, Prod.mk.injEq] at hinit
        rw [← hinit.2.2]
        exact scope_prot_same w h.m_vtable sz x _ (hp x) hx

theorem unhook_all_prot (sz : Nat) (h : hook_t) (w : World) (x : Nat)
    (hx : h.m_vtable ≤ x → x < h.m_vtable + sz → w.prot x = w.prot h.m_vtable) :
    (h.unhook_all sz w).2.prot x = w.prot x := by
  by_cases horig : h.m_orig = 0
  · rw [unhook_all_done sz h w horig]
  · exact scope_prot_same w h.m_vtable sz x _ ((unhook_all_scope sz h w horig).1 x) hx

theorem unhook_all_mem_of_ne (sz : Nat) (h : hook_t) (w : World) (a : Nat)
    (ha : a ≠ h.m_vtable) : (h.unhook_all sz w).2.mem a = w.mem a := by
  by_cases horig : h.m_orig = 0
  · rw [unhook_all_done sz h w horig]
  · simp only [hook_t.unhook_all, horig, if_false]
    exact write_other _ _ _ _ ha

theorem demo_installable (s : Nat) (hs : s < 0x10000) :
    Installable 8 true (demoWorld s) 0x200000 0x400008 0x300000 3 where
  sz_pos := by decide
  bound := by decide
  field := rfl
  rtti := by decide
  valid := by
    intro k hk
    interval_cases k <;> simp [demoWorld, demoMem, isValidEntry]
  sentinel := Or.inr ⟨rfl, hs⟩
  n_pos := by decide
  n_le := by decide
  fresh_field := by decide
  fresh_table := by decide
  apart := by decide

/-! ## Claims -/

/-- C1: for every table whose first `n` words (`n < 2^32`) are valid entries
and whose word at index `n` is a sentinel, `mem::get_vtable_length` returns
exactly `n` (given more than `n` iterations of fuel).  The case `n = 0` is
included. -/
theorem get_vtable_length_exact (fuel sz : Nat) (win : Bool) (m : Mem) (table n : Nat)
    (hn : n < 2 ^ 32)
    (hvalid : ∀ k, k < n → isValidEntry win (m (table + k * sz)))
    (hsent : isSentinel win (m (table + n * sz)))
    (hfuel : n < fuel) :
    mem.get_vtable_length fuel sz win m table = some n :=
  scan_exact fuel sz win m table n hn hvalid hsent hfuel

theorem get_vtable_length_exact_witness :
    mem.get_vtable_length 10 8 true (demoMem 0x00ff) 0x400008 = some 3 :=
  get_vtable_length_exact 10 8 true (demoMem 0x00ff) 0x400008 3 (by decide) (by decide)
    (by decide) (by decide)

/-- C2: for a bound object whose table has `n` valid entries (`1 ≤ n ≤ 65535`)
preceded by a type-info word, `init` returns true; afterwards the block at `p`
is a live block of `n + 1` words, `Shadow[0] = Original[-1]`,
`Shadow[k+1] = Original[k]` for all `k < n`, and the object's table-pointer
word holds the address of `Shadow[1]`. -/
theorem init_installs_shadow (fuel sz : Nat) (win : Bool) (w : World) (ptr orig p n : Nat)
    (hs : Installable sz win w ptr orig p n) (hfuel : n < fuel) :
    ∃ h1 w1, (hook_t.ctor ptr).init fuel sz win p w = some (true, h1, w1) ∧
      h1.m_replace = p ∧
      (p, n + 1) ∈ w1.heap ∧
      w1.mem p = w.mem (orig - sz) ∧
      (∀ k, k < n → w1.mem (p + (k + 1) * sz) = w.mem (orig + k * sz)) ∧
      w1.mem ptr = p + sz := by
  obtain ⟨hsz, hb, hf, hr, hv, hse, hn1, hn2, hfv, hft, _⟩ := hs
  subst hf
  have hmod : n % 2 ^ 16 = n := Nat.mod_eq_of_lt (by omega)
  have hscan : mem.get_vtable_length fuel sz win w.mem (w.mem (hook_t.ctor ptr).m_vtable) =
      some n := scan_exact fuel sz win w.mem (w.mem ptr) n (by omega) hv hse hfuel
  obtain ⟨w1, hinit, hmem, hheap⟩ :=
    init_ok fuel sz win p (hook_t.ctor ptr) w n hb hscan (by omega)
  rw [hmod] at hinit hmem hheap
  refine ⟨_, w1, hinit, rfl, ?_, ?_, ?_, ?_⟩
  · rw [hheap]
    exact List.mem_cons_self _ _
  · rw [hmem]
    exact install_mem_rtti sz w.mem ptr (w.mem ptr) p n hsz hr hfv hft
  · intro k hk
    rw [hmem]
    exact install_mem_slot sz w.mem ptr (w.mem ptr) p n k hsz hk hfv hft
  · rw [hmem]
    exact install_mem_field sz w.mem ptr (w.mem ptr) p n

theorem init_installs_shadow_witness :
    ∃ h1 w1, (hook_t.ctor 0x200000).init 10 8 true 0x300000 (demoWorld 0) = some (true, h1, w1) ∧
      h1.m_replace = 0x300000 ∧
      (0x300000, 3 + 1) ∈ w1.heap ∧
      w1.mem 0x300000 = (demoWorld 0).mem (0x400008 - 8) ∧
      (∀ k, k < 3 → w1.mem (0x300000 + (k + 1) * 8) = (demoWorld 0).mem (0x400008 + k * 8)) ∧
      w1.mem 0x200000 = 0x300000 + 8 :=
  init_installs_shadow 10 8 true (demoWorld 0) 0x200000 0x400008 0x300000 3
    (demo_installable 0 (by decide)) (by decide)

/-- C3: evaluation of the code at the boundary index `i = n`.  For the example
object (table of `n = 3` entries followed by the resource identifier `0xff`,
shadow block of 4 words at `0x300000`), `hook( 3, 0x600000 )` and `unhook( 3 )`
pass the bounds check and store to the word at `0x300020`, one past the end of
the shadow block, and `get_original( 3 )` hands back the word after the table
instead of null; index `n + 1 = 4` is rejected. -/
theorem slot_ops_at_table_length :
    ∃ h1 w1, (hook_t.ctor 0x200000).init 10 8 true 0x300000 (demoWorld 0x00ff) =
        some (true, h1, w1) ∧
      h1.m_table_length = 3 ∧ w1.heap = [(0x300000, 4)] ∧
      w1.mem 0x300020 = 0 ∧
      (h1.hook 8 w1 3 0x600000).2.mem 0x300020 = 0x600000 ∧
      (h1.unhook 8 w1 3).2.mem 0x300020 = 0x00ff ∧
      h1.get_original 8 w1 3 = 0x00ff ∧
      (h1.hook 8 w1 4 0x600000).2.mem 0x300028 = w1.mem 0x300028 ∧
      h1.get_original 8 w1 4 = 0 :=
  ⟨_, _, rfl, rfl, rfl, rfl, rfl, rfl, rfl, rfl, rfl⟩

/-- C4: evaluation of the code on a table of 65537 entries.  The scan returns
65537, the 16-bit length field records 1, `init` returns true, and
`get_original( 5 )`, with the index 5 inside the table, returns null although
`Original[5]` holds `0x900030`. -/
theorem get_original_long_table :
    (∀ k, k < 65537 → isValidEntry true ((bigWorld 0x200000).mem (0x400008 + k * 8))) ∧
    isSentinel true ((bigWorld 0x200000).mem (0x400008 + 65537 * 8)) ∧
    ∃ h1 w1, (hook_t.ctor 0x200000).init 70000 8 true 0x300000 (bigWorld 0x200000) =
        some (true, h1, w1) ∧
      h1.get_original 8 w1 5 = 0 ∧
      (bigWorld 0x200000).mem (0x400008 + 5 * 8) = 0x900030 := by
  obtain ⟨w1, hinit, _, _⟩ := big_init 0x200000 0x300000 (by decide) (by decide)
  exact ⟨big_valid 0x200000 (by decide), big_sentinel 0x200000 (by decide),
    _, w1, hinit, rfl, rfl⟩

/-- Where the 16-bit length field holds the table length (`1 ≤ n ≤ 65535`):
after a successful `init`, for every index `i < n` and every subsequent sequence of
`hook` and `unhook( index )` calls with in-range indices, `get_original( i )`
returns the value stored at `Original[i]` before installation. -/
theorem get_original_after_ops (fuel sz : Nat) (win : Bool) (w : World) (ptr orig p n : Nat)
    (hs : Installable sz win w ptr orig p n) (hfuel : n < fuel)
    (ops : List SlotOp) (hops : ∀ op, op ∈ ops → op.index < n) (i : Nat) (hi : i < n) :
    ∃ h1 w1, (hook_t.ctor ptr).init fuel sz win p w = some (true, h1, w1) ∧
      (runOps sz (h1, w1) ops).1.get_original sz (runOps sz (h1, w1) ops).2 i =
        w.mem (orig + i * sz) := by
  obtain ⟨w1, hinit, hmem, _⟩ := init_of_installable fuel sz win w ptr orig p n hs hfuel
  refine ⟨_, w1, hinit, ?_⟩
  rw [runOps_fst]
  have hg : ¬ (i < 0 ∨ i > n) := by omega
  simp only [hook_t.get_original, hg, if_false]
  exact table_after_ops sz win w w1 ptr orig p n i hs hmem ops hops hi

theorem get_original_after_ops_witness :
    ∃ h1 w1, (hook_t.ctor 0x200000).init 10 8 true 0x300000 (demoWorld 0) = some (true, h1, w1) ∧
      (runOps 8 (h1, w1) [.hook 1 0x600000, .unhook 0, .hook 2 0x600008]).1.get_original 8
        (runOps 8 (h1, w1) [.hook 1 0x600000, .unhook 0, .hook 2 0x600008]).2 1 =
        (demoWorld 0).mem (0x400008 + 1 * 8) :=
  get_original_after_ops 10 8 true (demoWorld 0) 0x200000 0x400008 0x300000 3
    (demo_installable 0 (by decide)) (by decide)
    [.hook 1 0x600000, .unhook 0, .hook 2 0x600008] (by decide) 1 (by decide)

/-- C5: evaluation of the code on a table of 65537 entries.  After a
successful `init`, `hook( 5, 0x600000 )`, with the index 5 inside the table,
is rejected by the bounds check against the recorded length 1, so entry 5 of
the table the object points to is not the replacement (the word there still
holds 0). -/
theorem hook_long_table :
    (∀ k, k < 65537 → isValidEntry true ((bigWorld 0x200000).mem (0x400008 + k * 8))) ∧
    isSentinel true ((bigWorld 0x200000).mem (0x400008 + 65537 * 8)) ∧
    ∃ h1 w1, (hook_t.ctor 0x200000).init 70000 8 true 0x300000 (bigWorld 0x200000) =
        some (true, h1, w1) ∧
      (h1.hook 8 w1 5 0x600000).2.mem 0x200000 = 0x300008 ∧
      (h1.hook 8 w1 5 0x600000).2.mem (0x300008 + 5 * 8) = 0 := by
  obtain ⟨w1, hinit, hmem, _⟩ := big_init 0x200000 0x300000 (by decide) (by decide)
  refine ⟨big_valid 0x200000 (by decide), big_sentinel 0x200000 (by decide),
    _, w1, hinit, ?_, ?_⟩
  · show w1.mem 0x200000 = 0x300008
    rw [hmem]
    exact install_mem_field 8 (bigMem 0x200000) 0x200000 0x400008 0x300000 1
  · show w1.mem (0x300008 + 5 * 8) = 0
    rw [hmem, install_mem_outside 8 (bigMem 0x200000) 0x200000 0x400008 0x300000 1 _
      (by decide) (by decide) (by decide)]
    exact bigMem_outside 0x200000 _ (by decide) (by decide)

/-- Where the 16-bit length field holds the table length (`1 ≤ n ≤ 65535`):
after a successful `init` (and any in-range slot operations), for every index `i < n`
and replacement `r`: after `hook( i, r )` entry `i` of the table the object
points to equals `r`, and after a following `unhook( i )` it equals
`Original[i]` again; right after `init`, `hook( i, r )` followed by
`unhook( i )` leaves the controller and the whole memory, hence the whole
shadow table, as `init` left them. -/
theorem hook_then_unhook (fuel sz : Nat) (win : Bool) (w : World) (ptr orig p n : Nat)
    (hs : Installable sz win w ptr orig p n) (hfuel : n < fuel)
    (ops : List SlotOp) (hops : ∀ op, op ∈ ops → op.index < n)
    (i : Nat) (hi : i < n) (r : Nat) :
    ∃ h1 w1, (hook_t.ctor ptr).init fuel sz win p w = some (true, h1, w1) ∧
      (let s := runOps sz (h1, w1) ops
       let s1 := s.1.hook sz s.2 i r
       let s2 := s1.1.unhook sz s1.2 i
       s1.2.mem (s1.2.mem ptr + i * sz) = r ∧
         s2.2.mem (s2.2.mem ptr + i * sz) = w.mem (orig + i * sz)) ∧
      (let t1 := h1.hook sz w1 i r
       let t2 := t1.1.unhook sz t1.2 i
       t2.1 = h1 ∧ t2.2.mem = w1.mem) := by
  obtain ⟨w1, hinit, hmem, _⟩ := init_of_installable fuel sz win w ptr orig p n hs hfuel
  refine ⟨_, w1, hinit, ?_, ?_⟩
  · intro s s1 s2
    have hfield := field_after_ops sz win w w1 ptr orig p n hs hmem ops hops
    have htable := table_after_ops sz win w w1 ptr orig p n i hs hmem ops hops hi
    have hfst := runOps_fst sz ops
      ({ m_vtable := ptr, m_table_length := n, m_orig := orig, m_replace := p }, w1)
    have hs1 : s1.1 = s.1 := hook_fst sz s.1 s.2 i r
    show s1.2.mem (s1.2.mem ptr + i * sz) = r ∧
      (s1.1.unhook sz s1.2 i).2.mem ((s1.1.unhook sz s1.2 i).2.mem ptr + i * sz) =
        w.mem (orig + i * sz)
    rw [hs1]
    show (s.1.hook sz s.2 i r).2.mem ((s.1.hook sz s.2 i r).2.mem ptr + i * sz) = r ∧
      (s.1.unhook sz (s.1.hook sz s.2 i r).2 i).2.mem
        ((s.1.unhook sz (s.1.hook sz s.2 i r).2 i).2.mem ptr + i * sz) = w.mem (orig + i * sz)
    rw [hfst]
    exact hook_unhook_entry sz win w ptr orig p n i r hs hi s.2 hfield htable
  · intro t1 t2
    constructor
    · show (t1.1.unhook sz t1.2 i).1 = _
      rw [unhook_fst]
      exact hook_fst sz _ w1 i r
    · have ht1 : t1.1 = hook_t.mk ptr n orig p := hook_fst sz _ w1 i r
      show (t1.1.unhook sz t1.2 i).2.mem = w1.mem
      rw [ht1]
      exact hook_unhook_restores sz win w w1 ptr orig p n i r hs hi hmem

theorem hook_then_unhook_witness :
    ∃ h1 w1, (hook_t.ctor 0x200000).init 10 8 true 0x300000 (demoWorld 0) = some (true, h1, w1) ∧
      (let s := runOps 8 (h1, w1) [.hook 0 0x600008, .hook 1 0x600010]
       let s1 := s.1.hook 8 s.2 1 0x600000
       let s2 := s1.1.unhook 8 s1.2 1
       s1.2.mem (s1.2.mem 0x200000 + 1 * 8) = 0x600000 ∧
         s2.2.mem (s2.2.mem 0x200000 + 1 * 8) = (demoWorld 0).mem (0x400008 + 1 * 8)) ∧
      (let t1 := h1.hook 8 w1 1 0x600000
       let t2 := t1.1.unhook 8 t1.2 1
       t2.1 = h1 ∧ t2.2.mem = w1.mem) :=
  hook_then_unhook 10 8 true (demoWorld 0) 0x200000 0x400008 0x300000 3
    (demo_installable 0 (by decide)) (by decide)
    [.hook 0 0x600008, .hook 1 0x600010] (by decide) 1 (by decide) 0x600000

/-- Where the 16-bit length field holds the table length (`1 ≤ n ≤ 65535`):
after a successful `init` followed by any sequence of in-range
`hook`/`unhook( index )` calls, `unhook()` sets the object's table-pointer
word to the address it held before `init` and leaves every word outside the
shadow block as it was before `init`; a second `unhook()` changes neither the
memory nor the controller. -/
theorem unhook_all_restores (fuel sz : Nat) (win : Bool) (w : World) (ptr orig p n : Nat)
    (hs : Installable sz win w ptr orig p n) (hfuel : n < fuel)
    (ops : List SlotOp) (hops : ∀ op, op ∈ ops → op.index < n) :
    ∃ h1 w1, (hook_t.ctor ptr).init fuel sz win p w = some (true, h1, w1) ∧
      ((runOps sz (h1, w1) ops).1.unhook_all sz (runOps sz (h1, w1) ops).2).2.mem ptr = orig ∧
      (∀ a, (a < p ∨ p + (n + 1) * sz ≤ a) →
        ((runOps sz (h1, w1) ops).1.unhook_all sz (runOps sz (h1, w1) ops).2).2.mem a =
          w.mem a) ∧
      (((runOps sz (h1, w1) ops).1.unhook_all sz (runOps sz (h1, w1) ops).2).1.unhook_all sz
          ((runOps sz (h1, w1) ops).1.unhook_all sz (runOps sz (h1, w1) ops).2).2) =
        (runOps sz (h1, w1) ops).1.unhook_all sz (runOps sz (h1, w1) ops).2 := by
  obtain ⟨w1, hinit, hmem, _⟩ := init_of_installable fuel sz win w ptr orig p n hs hfuel
  refine ⟨_, w1, hinit, ?_⟩
  have hfst := runOps_fst sz ops
    ({ m_vtable := ptr, m_table_length := n, m_orig := orig, m_replace := p }, w1)
  have hsz := hs.sz_pos
  have hr := hs.rtti
  have hne : (runOps sz (hook_t.mk ptr n orig p, w1) ops).1.m_orig ≠ 0 := by
    rw [hfst]
    show orig ≠ 0
    omega
  obtain ⟨hrest, hzero⟩ :=
    unhook_all_restore sz _ (runOps sz (hook_t.mk ptr n orig p, w1) ops).2 hne
  rw [hfst] at hrest
  have hptr : ((runOps sz (hook_t.mk ptr n orig p, w1) ops).1.unhook_all sz
      (runOps sz (hook_t.mk ptr n orig p, w1) ops).2).2.mem ptr = orig := by
    rw [hfst]
    exact hrest
  refine ⟨hptr, ?_, unhook_all_done sz _ _ hzero⟩
  intro a ha
  by_cases hap : a = ptr
  · rw [hap, hptr, hs.field]
  · rw [unhook_all_mem_of_ne sz _ _ a (by rw [hfst]; exact hap), runOps_mem_of_ne, hmem]
    · exact install_mem_outside sz w.mem ptr orig p n a hsz hap ha
    · intro op hop
      exact slot_ne_of_outside sz p n op.index a hsz (hops op hop) ha

theorem unhook_all_restores_witness :
    ∃ h1 w1, (hook_t.ctor 0x200000).init 10 8 true 0x300000 (demoWorld 0) = some (true, h1, w1) ∧
      ((runOps 8 (h1, w1) [.hook 1 0x600000, .unhook 0, .hook 2 0x600008]).1.unhook_all 8
          (runOps 8 (h1, w1) [.hook 1 0x600000, .unhook 0, .hook 2 0x600008]).2).2.mem 0x200000 =
        0x400008 ∧
      (∀ a, (a < 0x300000 ∨ 0x300000 + (3 + 1) * 8 ≤ a) →
        ((runOps 8 (h1, w1) [.hook 1 0x600000, .unhook 0, .hook 2 0x600008]).1.unhook_all 8
            (runOps 8 (h1, w1) [.hook 1 0x600000, .unhook 0, .hook 2 0x600008]).2).2.mem a =
          (demoWorld 0).mem a) ∧
      (((runOps 8 (h1, w1) [.hook 1 0x600000, .unhook 0, .hook 2 0x600008]).1.unhook_all 8
          (runOps 8 (h1, w1) [.hook 1 0x600000, .unhook 0, .hook 2 0x600008]).2).1.unhook_all 8
          ((runOps 8 (h1, w1) [.hook 1 0x600000, .unhook 0, .hook 2 0x600008]).1.unhook_all 8
            (runOps 8 (h1, w1) [.hook 1 0x600000, .unhook 0, .hook 2 0x600008]).2).2) =
        (runOps 8 (h1, w1) [.hook 1 0x600000, .unhook 0, .hook 2 0x600008]).1.unhook_all 8
          (runOps 8 (h1, w1) [.hook 1 0x600000, .unhook 0, .hook 2 0x600008]).2 :=
  unhook_all_restores 10 8 true (demoWorld 0) 0x200000 0x400008 0x300000 3
    (demo_installable 0 (by decide)) (by decide)
    [.hook 1 0x600000, .unhook 0, .hook 2 0x600008] (by decide)

/-- C7: for a bound object whose table starts with the zero sentinel,
`mem::get_vtable_length` returns 0 and `init` returns false, leaving the
object's table-pointer word (and every other memory word) as it was; and
`init` on a controller with a null target returns false and leaves the whole
state untouched. -/
theorem init_rejects_empty_table (fuel sz : Nat) (win : Bool) (p : Nat) (w : World) (ptr : Nat)
    (hptr : ptr ≠ 0) (hzero : w.mem (w.mem ptr) = 0) (hfuel : 0 < fuel) :
    mem.get_vtable_length fuel sz win w.mem (w.mem ptr) = some 0 ∧
    (∃ h1 w1, (hook_t.ctor ptr).init fuel sz win p w = some (false, h1, w1) ∧
      w1.mem ptr = w.mem ptr ∧ ∀ a, w1.mem a = w.mem a) ∧
    (hook_t.ctor 0).init fuel sz win p w = some (false, hook_t.ctor 0, w) := by
  have hscan : mem.get_vtable_length fuel sz win w.mem (w.mem ptr) = some 0 :=
    scan_exact fuel sz win w.mem (w.mem ptr) 0 (by decide) (fun k hk => absurd hk (by omega))
      (Or.inl (by simpa using hzero)) hfuel
  refine ⟨hscan, ?_, init_null fuel sz win p (hook_t.ctor 0) w rfl⟩
  obtain ⟨w1, hinit, hmem, _⟩ :=
    init_fail fuel sz win p (hook_t.ctor ptr) w 0 hptr hscan (by decide)
  exact ⟨_, w1, hinit, by rw [hmem], fun a => by rw [hmem]⟩

theorem init_rejects_empty_table_witness :
    mem.get_vtable_length 10 8 true emptyTableWorld.mem (emptyTableWorld.mem 0x200000) = some 0 ∧
    (∃ h1 w1, (hook_t.ctor 0x200000).init 10 8 true 0x300000 emptyTableWorld =
        some (false, h1, w1) ∧
      w1.mem 0x200000 = emptyTableWorld.mem 0x200000 ∧ ∀ a, w1.mem a = emptyTableWorld.mem a) ∧
    (hook_t.ctor 0).init 10 8 true 0x300000 emptyTableWorld =
      some (false, hook_t.ctor 0, emptyTableWorld) :=
  init_rejects_empty_table 10 8 true 0x300000 emptyTableWorld 0x200000 (by decide) (by decide)
    (by decide)

/-- C8: in every state reachable from a successful `init` by any sequence of
`hook( i, r )` and `unhook( i )` calls, for any indices and replacements,
`Shadow[0]` (the word at `m_replace`) equals the type-info word that preceded
the original table at `init`.  The shadow block of `m_table_length + 1` words
is assumed disjoint from the object's table-pointer word and from the copied
part of the original table. -/
theorem shadow_slot_zero_invariant (fuel sz : Nat) (win : Bool) (p ptr : Nat) (w : World)
    (h1 : hook_t) (w1 : World) (hsz : 0 < sz)
    (hinit : (hook_t.ctor ptr).init fuel sz win p w = some (true, h1, w1))
    (hr : sz ≤ w.mem ptr)
    (hfv : ptr + sz ≤ p ∨ p + (h1.m_table_length + 1) * sz ≤ ptr)
    (hft : w.mem ptr + h1.m_table_length * sz ≤ p ∨
      p + (h1.m_table_length + 1) * sz ≤ w.mem ptr - sz)
    (ops : List SlotOp) :
    (runOps sz (h1, w1) ops).1.m_replace = p ∧
    (runOps sz (h1, w1) ops).2.mem (runOps sz (h1, w1) ops).1.m_replace =
      w.mem (w.mem ptr - sz) := by
  obtain ⟨_, length, _, _, hh1, hmem, _⟩ := init_true_inv fuel sz win p _ h1 w w1 hinit
  have hfst : (runOps sz (h1, w1) ops).1 = h1 := runOps_fst sz ops _
  have hp : h1.m_replace = p := by rw [hh1]
  have hl : h1.m_table_length = length % 2 ^ 16 := by rw [hh1]
  rw [hl] at hfv hft
  rw [hfst, hp]
  refine ⟨rfl, ?_⟩
  rw [runOps_mem_of_ne, hmem]
  · exact install_mem_rtti sz w.mem ptr (w.mem ptr) p (length % 2 ^ 16) hsz hr hfv hft
  · intro op _
    show p ≠ h1.m_replace + (op.index + 1) * sz
    rw [hp]
    exact slot_zero_ne sz p op.index hsz

theorem shadow_slot_zero_invariant_witness :
    ∃ h1 w1, (hook_t.ctor 0x200000).init 10 8 true 0x300000 (demoWorld 0) = some (true, h1, w1) ∧
      (runOps 8 (h1, w1) [.hook 3 0x600000, .hook 65535 1, .unhook 0, .hook 0 0x600008]).1.m_replace
        = 0x300000 ∧
      (runOps 8 (h1, w1) [.hook 3 0x600000, .hook 65535 1, .unhook 0, .hook 0 0x600008]).2.mem
          (runOps 8 (h1, w1)
            [.hook 3 0x600000, .hook 65535 1, .unhook 0, .hook 0 0x600008]).1.m_replace =
        (demoWorld 0).mem ((demoWorld 0).mem 0x200000 - 8) :=
  ⟨_, _, rfl, shadow_slot_zero_invariant 10 8 true 0x300000 0x200000 (demoWorld 0) _ _
    (by decide) rfl (by decide) (by decide) (by decide)
    [.hook 3 0x600000, .hook 65535 1, .unhook 0, .hook 0 0x600008]⟩

/-- C9: evaluation of the code on a table of 65537 entries whose object lies
right after the shadow block.  The recorded length is 1 and the shadow block
has 2 words; `hook( 1, 0x600000 )`, with the index 1 inside the table, passes
the bounds check and stores to the word after the block, which is the
object's table-pointer word. -/
theorem hook_long_table_overwrites_field :
    (∀ k, k < 65537 → isValidEntry true ((bigWorld 0x300010).mem (0x400008 + k * 8))) ∧
    isSentinel true ((bigWorld 0x300010).mem (0x400008 + 65537 * 8)) ∧
    ∃ h1 w1, (hook_t.ctor 0x300010).init 70000 8 true 0x300000 (bigWorld 0x300010) =
        some (true, h1, w1) ∧
      w1.heap = [(0x300000, 2)] ∧
      w1.mem 0x300010 = 0x300008 ∧
      (h1.hook 8 w1 1 0x600000).2.mem 0x300010 = 0x600000 := by
  obtain ⟨w1, hinit, hmem, hheap⟩ := big_init 0x300010 0x300000 (by decide) (by decide)
  refine ⟨big_valid 0x300010 (by decide), big_sentinel 0x300010 (by decide),
    _, w1, hinit, hheap, ?_, ?_⟩
  · rw [hmem]
    exact install_mem_field 8 (bigMem 0x300010) 0x300010 0x400008 0x300000 1
  · exact hook_mem_slot 8 (hook_t.mk 0x300010 1 0x400008 0x300000) w1 1 0x600000 (by decide)

/-- Where the 16-bit length field holds the table length (`1 ≤ n ≤ 65535`):
after a successful `init` (and any further slot operations), for every index `i < n`
and replacement `r`, `hook( i, r )` sets `Shadow[i+1]` to `r` and changes no
other word of memory: shadow slot 0, every `Shadow[j+1]` with `j ≠ i`, the
type-info word and the entries of the original table and the object's
table-pointer word keep their values, and the controller (saved-original
pointer and table length included), the protection flags and the heap are
unchanged. -/
theorem hook_changes_one_slot (fuel sz : Nat) (win : Bool) (w : World) (ptr orig p n : Nat)
    (hs : Installable sz win w ptr orig p n) (hfuel : n < fuel)
    (ops : List SlotOp)
    (i : Nat) (hi : i < n) (r : Nat) :
    ∃ h1 w1, (hook_t.ctor ptr).init fuel sz win p w = some (true, h1, w1) ∧
      (let s := runOps sz (h1, w1) ops
       let s1 := s.1.hook sz s.2 i r
       s1.2.mem (p + (i + 1) * sz) = r ∧
       (∀ a, a ≠ p + (i + 1) * sz → s1.2.mem a = s.2.mem a) ∧
       s1.2.mem p = s.2.mem p ∧
       (∀ j, j < n → j ≠ i → s1.2.mem (p + (j + 1) * sz) = s.2.mem (p + (j + 1) * sz)) ∧
       s1.2.mem (orig - sz) = s.2.mem (orig - sz) ∧
       (∀ k, k < n → s1.2.mem (orig + k * sz) = s.2.mem (orig + k * sz)) ∧
       s1.2.mem ptr = s.2.mem ptr ∧
       s1.1 = s.1 ∧ s1.1.m_orig = orig ∧ s1.1.m_table_length = n ∧
       s1.2.prot = s.2.prot ∧ s1.2.heap = s.2.heap) := by
  obtain ⟨w1, hinit, _, _⟩ := init_of_installable fuel sz win w ptr orig p n hs hfuel
  refine ⟨_, w1, hinit, ?_⟩
  intro s s1
  have hsz := hs.sz_pos
  have hfst : s.1 = hook_t.mk ptr n orig p := runOps_fst sz ops _
  have hs1 : s1.1 = s.1 := hook_fst sz s.1 s.2 i r
  have hrep : s.1.m_replace = p := by rw [hfst]
  have hlen : i ≤ s.1.m_table_length := by rw [hfst]; exact Nat.le_of_lt hi
  have hframe : ∀ a, a ≠ p + (i + 1) * sz → s1.2.mem a = s.2.mem a := by
    intro a ha
    exact hook_mem_of_ne sz s.1 s.2 i r a (by rw [hrep]; exact ha)
  have hrtti : orig - sz < p ∨ p + (n + 1) * sz ≤ orig - sz := by
    have hr := hs.rtti
    have hft := hs.fresh_table
    omega
  refine ⟨?_, hframe, ?_, ?_, ?_, ?_, ?_, hs1, ?_, ?_, ?_, ?_⟩
  · have := hook_mem_slot sz s.1 s.2 i r hlen
    rw [hrep] at this
    exact this
  · exact hframe p (slot_zero_ne sz p i hsz)
  · intro j _ hji
    apply hframe
    intro hc
    have := Nat.eq_of_mul_eq_mul_right hsz (Nat.add_left_cancel hc)
    omega
  · exact hframe _ (slot_ne_of_outside sz p n i _ hsz hi hrtti)
  · intro k hk
    exact hframe _ (slot_ne_of_outside sz p n i _ hsz hi
      (table_word_outside sz win w ptr orig p n k hs hk).1)
  · exact hframe _ (slot_ne_of_outside sz p n i _ hsz hi (field_outside sz win w ptr orig p n hs))
  · rw [hs1, hfst]
  · rw [hs1, hfst]
  · exact (hook_rest sz s.1 s.2 i r).1
  · exact (hook_rest sz s.1 s.2 i r).2.2

theorem hook_changes_one_slot_witness :
    ∃ h1 w1, (hook_t.ctor 0x200000).init 10 8 true 0x300000 (demoWorld 0) = some (true, h1, w1) ∧
      (let s := runOps 8 (h1, w1) []
       let s1 := s.1.hook 8 s.2 1 0x600000
       s1.2.mem (0x300000 + (1 + 1) * 8) = 0x600000 ∧
       (∀ a, a ≠ 0x300000 + (1 + 1) * 8 → s1.2.mem a = s.2.mem a) ∧
       s1.2.mem 0x300000 = s.2.mem 0x300000 ∧
       (∀ j, j < 3 → j ≠ 1 →
         s1.2.mem (0x300000 + (j + 1) * 8) = s.2.mem (0x300000 + (j + 1) * 8)) ∧
       s1.2.mem (0x400008 - 8) = s.2.mem (0x400008 - 8) ∧
       (∀ k, k < 3 → s1.2.mem (0x400008 + k * 8) = s.2.mem (0x400008 + k * 8)) ∧
       s1.2.mem 0x200000 = s.2.mem 0x200000 ∧
       s1.1 = s.1 ∧ s1.1.m_orig = 0x400008 ∧ s1.1.m_table_length = 3 ∧
       s1.2.prot = s.2.prot ∧ s1.2.heap = s.2.heap) :=
  hook_changes_one_slot 10 8 true (demoWorld 0) 0x200000 0x400008 0x300000 3
    (demo_installable 0 (by decide)) (by decide) [] 1 (by decide) 0x600000

/-- C10, as stated, fails on the zero-length path: for the example object whose
table starts with the zero sentinel, `init` returns false and the
saved-original pointer, null before the call, holds `0x400008` after it. -/
theorem init_failure_keeps_orig :
    ∃ h1 w1, (hook_t.ctor 0x200000).init 10 8 true 0x300000 emptyTableWorld =
        some (false, h1, w1) ∧
      emptyTableWorld.mem 0x400008 = 0 ∧
      (hook_t.ctor 0x200000).m_orig = 0 ∧ h1.m_orig = 0x400008 :=
  ⟨_, _, rfl, rfl, rfl, rfl⟩

/-- C10 (amended): when `init` on a freshly bound controller fails, the target,
the table length (0) and the shadow pointer (null) are as before the call and
no heap block is allocated; the saved-original pointer is still null on the
null-target path (the whole state is untouched there), and on the other
failure path it holds the object's current table address. -/
theorem init_failure_state (fuel sz : Nat) (win : Bool) (p ptr : Nat) (w : World)
    (h1 : hook_t) (w1 : World)
    (hinit : (hook_t.ctor ptr).init fuel sz win p w = some (false, h1, w1)) :
    h1.m_vtable = ptr ∧ h1.m_table_length = 0 ∧ h1.m_replace = 0 ∧ w1.heap = w.heap ∧
    (ptr = 0 → h1 = hook_t.ctor ptr ∧ w1 = w) ∧
    (ptr ≠ 0 → h1.m_orig = w.mem ptr) := by
  rcases init_false_inv fuel sz win p _ h1 w w1 hinit with ⟨hz, hh, hw⟩ | ⟨hnz, hh, _, hheap⟩
  · subst hh hw
    exact ⟨rfl, rfl, rfl, rfl, fun _ => ⟨rfl, rfl⟩, fun hne => absurd hz hne⟩
  · subst hh
    exact ⟨rfl, rfl, rfl, hheap, fun h0 => absurd h0 hnz, fun _ => rfl⟩

theorem init_failure_state_witness :
    ∃ h1 w1, (hook_t.ctor 0x200000).init 10 8 true 0x300000 emptyTableWorld =
        some (false, h1, w1) ∧
      h1.m_vtable = 0x200000 ∧ h1.m_table_length = 0 ∧ h1.m_replace = 0 ∧
      w1.heap = emptyTableWorld.heap ∧
      (0x200000 = 0 → h1 = hook_t.ctor 0x200000 ∧ w1 = emptyTableWorld) ∧
      (0x200000 ≠ 0 → h1.m_orig = emptyTableWorld.mem 0x200000) :=
  ⟨_, _, rfl, init_failure_state 10 8 true 0x300000 0x200000 emptyTableWorld _ _ rfl⟩

/-- C11: evaluation of the code on a table of scanned length 65537.  The
scanner returns 65537, `init` returns true, and the controller records the
table length 1 (65537 modulo 2^16) and allocates a shadow block of 2 words,
which holds the type-info word and `Original[0]` only: `Original[1]` is not
copied, the word after the block stays zero. -/
theorem init_truncates_length :
    mem.get_vtable_length 70000 8 true (bigWorld 0x200000).mem
      ((bigWorld 0x200000).mem 0x200000) = some 65537 ∧
    ∃ h1 w1, (hook_t.ctor 0x200000).init 70000 8 true 0x300000 (bigWorld 0x200000) =
        some (true, h1, w1) ∧
      h1.m_table_length = 1 ∧ w1.heap = [(0x300000, 2)] ∧
      w1.mem 0x300000 = 0x900000 ∧ w1.mem (0x300000 + (0 + 1) * 8) = 0x900008 ∧
      (bigWorld 0x200000).mem (0x400008 + 1 * 8) = 0x900010 ∧
      w1.mem (0x300000 + (1 + 1) * 8) = 0 := by
  obtain ⟨w1, hinit, hmem, hheap⟩ := big_init 0x200000 0x300000 (by decide) (by decide)
  refine ⟨?_, _, w1, hinit, rfl, hheap, ?_, ?_, rfl, ?_⟩
  · show mem.get_vtable_length 70000 8 true (bigWorld 0x200000).mem 0x400008 = some 65537
    exact scan_exact 70000 8 true (bigWorld 0x200000).mem 0x400008 65537 (by decide)
      (big_valid 0x200000 (by decide)) (big_sentinel 0x200000 (by decide)) (by decide)
  · rw [hmem, install_mem_rtti 8 (bigMem 0x200000) 0x200000 0x400008 0x300000 1
      (by decide) (by decide) (by decide) (by decide)]
    rfl
  · rw [hmem, install_mem_slot 8 (bigMem 0x200000) 0x200000 0x400008 0x300000 1 0
      (by decide) (by decide) (by decide) (by decide)]
    rfl
  · rw [hmem, install_mem_outside 8 (bigMem 0x200000) 0x200000 0x400008 0x300000 1 _
      (by decide) (by decide) (by decide)]
    exact bigMem_outside 0x200000 _ (by decide) (by decide)

/-- C12: for every call to `init` that returns (with either result, from any
controller state) and every call to `unhook()`, the protection of the
object's table-pointer word is the same after the call as before: at the
address of the word, and at every address whose protection before the call
agreed with it (the other bytes of the word) or that lies outside the word. -/
theorem protection_restored (fuel sz : Nat) (win : Bool) (p : Nat) (h h1 : hook_t)
    (w w1 : World) (b : Bool) (hinit : h.init fuel sz win p w = some (b, h1, w1))
    (g : hook_t) (v : World) :
    (w1.prot h.m_vtable = w.prot h.m_vtable ∧
      ∀ a, (h.m_vtable ≤ a → a < h.m_vtable + sz → w.prot a = w.prot h.m_vtable) →
        w1.prot a = w.prot a) ∧
    ((g.unhook_all sz v).2.prot g.m_vtable = v.prot g.m_vtable ∧
      ∀ a, (g.m_vtable ≤ a → a < g.m_vtable + sz → v.prot a = v.prot g.m_vtable) →
        (g.unhook_all sz v).2.prot a = v.prot a) :=
  ⟨⟨init_some_prot fuel sz win p h h1 w w1 b hinit _ (fun _ _ => rfl),
    fun a ha => init_some_prot fuel sz win p h h1 w w1 b hinit a ha⟩,
   ⟨unhook_all_prot sz g v _ (fun _ _ => rfl), fun a ha => unhook_all_prot sz g v a ha⟩⟩

theorem protection_restored_witness :
    ∃ h1 w1, (hook_t.ctor 0x200000).init 10 8 true 0x300000 (demoWorld 0) = some (true, h1, w1) ∧
      (w1.prot (hook_t.ctor 0x200000).m_vtable = (demoWorld 0).prot (hook_t.ctor 0x200000).m_vtable ∧
        ∀ a, ((hook_t.ctor 0x200000).m_vtable ≤ a → a < (hook_t.ctor 0x200000).m_vtable + 8 →
            (demoWorld 0).prot a = (demoWorld 0).prot (hook_t.ctor 0x200000).m_vtable) →
          w1.prot a = (demoWorld 0).prot a) ∧
      ((h1.unhook_all 8 w1).2.prot h1.m_vtable = w1.prot h1.m_vtable ∧
        ∀ a, (h1.m_vtable ≤ a → a < h1.m_vtable + 8 → w1.prot a = w1.prot h1.m_vtable) →
          (h1.unhook_all 8 w1).2.prot a = w1.prot a) :=
  ⟨_, _, rfl, protection_restored 10 8 true 0x300000 (hook_t.ctor 0x200000) _ (demoWorld 0) _
    true rfl _ _⟩

/-- C13, as stated, fails: for the example object whose table starts with the
zero sentinel the scan yields 0 and `init` returns false, yet two
`VirtualProtect` calls are logged, the first setting the object's
table-pointer word to `PAGE_READWRITE` before the scan, the second restoring
the previous protection. -/
theorem init_zero_length_calls_VirtualProtect :
    mem.get_vtable_length 10 8 true emptyTableWorld.mem (emptyTableWorld.mem 0x200000) = some 0 ∧
    ∃ h1 w1, (hook_t.ctor 0x200000).init 10 8 true 0x300000 emptyTableWorld =
        some (false, h1, w1) ∧
      emptyTableWorld.vp_calls = [] ∧
      w1.vp_calls = [(0x200000, 8, PAGE_READWRITE), (0x200000, 8, 2)] :=
  ⟨rfl, _, _, rfl, rfl, rfl⟩

/-- C13 (amended): when `init` on a bound controller fails because the scan
yields length zero, exactly two `VirtualProtect` calls are issued, both on the
object's table-pointer word: one setting `PAGE_READWRITE` before the scan and
one restoring the previous protection before `init` returns, so the word's
protection is the same after the call as before; no word of memory, the
object's table-pointer word included, is written. -/
theorem init_zero_length_scope (fuel sz : Nat) (win : Bool) (p ptr : Nat) (w : World)
    (hptr : ptr ≠ 0)
    (hscan : mem.get_vtable_length fuel sz win w.mem (w.mem ptr) = some 0) :
    ∃ h1 w1, (hook_t.ctor ptr).init fuel sz win p w = some (false, h1, w1) ∧
      w1.vp_calls = w.vp_calls ++ [(ptr, sz, PAGE_READWRITE), (ptr, sz, w.prot ptr)] ∧
      w1.prot ptr = w.prot ptr ∧
      (∀ a, w1.mem a = w.mem a) := by
  obtain ⟨w1, hinit, hmem, hprot, hlog⟩ :=
    init_fail_scope fuel sz win p (hook_t.ctor ptr) w 0 hptr hscan (by decide)
  refine ⟨_, w1, hinit, hlog, ?_, fun a => by rw [hmem]⟩
  exact scope_prot_same w ptr sz ptr _ (hprot ptr) (fun _ _ => rfl)

theorem init_zero_length_scope_witness :
    ∃ h1 w1, (hook_t.ctor 0x200000).init 10 8 true 0x300000 emptyTableWorld =
        some (false, h1, w1) ∧
      w1.vp_calls = emptyTableWorld.vp_calls ++
        [(0x200000, 8, PAGE_READWRITE), (0x200000, 8, emptyTableWorld.prot 0x200000)] ∧
      w1.prot 0x200000 = emptyTableWorld.prot 0x200000 ∧
      (∀ a, w1.mem a = emptyTableWorld.mem a) :=
  init_zero_length_scope 10 8 true 0x300000 0x200000 emptyTableWorld (by decide) rfl

set_option maxHeartbeats 1000000 in
/-- C14: evaluation of the code outside the installed state, on the example
object with a 3-entry table.  After `init` and `unhook()` the saved-original
pointer is null and the object is restored, yet the recorded length is still
3: `hook( 1, 0x600000 )` stores into `Shadow[2]`, `unhook( 1 )` then stores
there the word read through the null pointer (address `0 + 1 * 8`), and
`get_original( 1 )` returns the word at that address (`0xdead` once it is
stored there) instead of null.  Before `init`, with no shadow block allocated,
`hook( 0, 0x600000 )` stores through the null shadow pointer, at address
`0 + 1 * 8`. -/
theorem slot_ops_outside_installed_state :
    ∃ h1 w1, (hook_t.ctor 0x200000).init 10 8 true 0x300000 (demoWorld 0) = some (true, h1, w1) ∧
      (let u := h1.unhook_all 8 w1
       let u1 := u.1.hook 8 u.2 1 0x600000
       u.1.m_orig = 0 ∧ u.1.m_table_length = 3 ∧ u.2.mem 0x200000 = 0x400008 ∧
       u.2.mem 0x300010 = 0x401010 ∧
       u1.2.mem 0x300010 = 0x600000 ∧
       (u1.1.unhook 8 u1.2 1).2.mem 0x300010 = u1.2.mem (0 + 1 * 8) ∧
       (u1.1.unhook 8 u1.2 1).2.mem 0x300010 = 0 ∧
       u.1.get_original 8 { u.2 with mem := u.2.mem.write (0 + 1 * 8) 0xdead } 1 = 0xdead) ∧
      (hook_t.ctor 0x200000).m_replace = 0 ∧ (demoWorld 0).heap = [] ∧
      (demoWorld 0).mem (0 + 1 * 8) = 0 ∧
      ((hook_t.ctor 0x200000).hook 8 (demoWorld 0) 0 0x600000).2.mem (0 + 1 * 8) = 0x600000 :=
  ⟨_, _, rfl, ⟨rfl, rfl, rfl, rfl, rfl, rfl, rfl, rfl⟩, rfl, rfl, rfl, rfl⟩

end vtable_hook
